import Mathlib

/-!
Shallow embedding of `src/helpers_text.py` (Project Gutenberg word-frequency
helpers): the metadata extractors `extract_title` and `extract_author_block`,
the stopword loader `load_stopwords`, and the tokenizer / frequency engine of
`MyHTMLParser` (`handle_data` and `frequency`).

Modelling conventions:
* Python strings are Lean `String` / `List Char`; character predicates follow
  the ASCII behaviour of the Python originals.
* Python dict / Counter values are association lists in insertion order
  (Python dicts preserve insertion order); Python string sets are lists read
  up to membership.
* `re.search` calls are embedded as explicit left-to-right scans with the
  same anchoring semantics as the Python `re` module: in multiline mode the
  caret matches at offset 0 of the searched string and right after each
  newline of the searched string.  Greedy character-class runs are maximal
  runs, which is exact here because no class overlaps its successor pattern.
* The file read in `load_stopwords` is embedded by passing the file content
  as `Option String` (`none` = unreadable or missing file, the case in which
  the Python code swallows the exception).
-/

namespace HelpersText

/-- Apostrophe character (ASCII 39). -/
def apos : Char := Char.ofNat 39

/-- The characters of Python `string.punctuation`:
exclamation through slash, colon through at-sign, bracket block, brace block. -/
def pyPunctuation : List Char :=
  "!\"#$%&".toList ++ [apos] ++ "()*+,-./:;<=>?@[\\]^_`\x7b|\x7d~".toList

/-- The Python regex class `[ \t]`. -/
def isSpaceTab (c : Char) : Bool := c == ' ' || c == '\t'

/-- Python whitespace (`\s`, `str.strip`, `str.split`), ASCII part:
space, tab, newline, carriage return, vertical tab, form feed. -/
def pyIsSpace (c : Char) : Bool :=
  c == ' ' || c == '\t' || c == '\n' || c == '\x0d' || c == '\x0b' || c == '\x0c'

/-- Python `str.lower` (ASCII). -/
def pyLower (l : List Char) : List Char := l.map Char.toLower

/-- Python `str.strip()` with no arguments: drop leading and trailing whitespace. -/
def pyStrip (l : List Char) : List Char :=
  ((l.dropWhile pyIsSpace).reverse.dropWhile pyIsSpace).reverse

/-- Python `str.rstrip()` with no arguments: drop trailing whitespace. -/
def pyRstrip (l : List Char) : List Char :=
  (l.reverse.dropWhile pyIsSpace).reverse

/-- Python `str.strip(chars)`: drop leading and trailing characters that are
members of `cs`. -/
def stripChars (cs : List Char) (s : List Char) : List Char :=
  ((s.dropWhile (fun c => cs.contains c)).reverse.dropWhile (fun c => cs.contains c)).reverse

/-- `startsWithL s pat` holds when `pat` is an initial segment of `s`
(Python `str.startswith`). -/
def startsWithL : List Char → List Char → Bool
  | _, [] => true
  | [], _ :: _ => false
  | c :: cs, d :: ds => c == d && startsWithL cs ds

/-- Split a character list at newline characters (the separators are dropped,
empty pieces are kept). -/
def splitNl : List Char → List (List Char)
  | [] => [[]]
  | c :: rest =>
    if c == '\n' then [] :: splitNl rest
    else
      match splitNl rest with
      | curr :: others => (c :: curr) :: others
      | [] => [[c]]

/-- Python `str.splitlines()` for newline-separated text: like `splitNl` but a
trailing line terminator produces no extra empty line. -/
def pySplitlines (text : String) : List (List Char) :=
  match (splitNl text.toList).getLast? with
  | some [] => (splitNl text.toList).dropLast
  | _ => splitNl text.toList

/-- Python `str.split()` with no arguments: split on whitespace runs,
producing no empty tokens (auxiliary accumulator holds the current token
reversed). -/
def splitWsAux : List Char → List Char → List (List Char)
  | [], acc => if acc.isEmpty then [] else [acc.reverse]
  | c :: rest, acc =>
    if pyIsSpace c then
      if acc.isEmpty then splitWsAux rest [] else acc.reverse :: splitWsAux rest []
    else splitWsAux rest (c :: acc)

/-- Python `data.split()`. -/
def pySplitWs (l : List Char) : List (List Char) := splitWsAux l []

/-! ### `extract_title` (helpers_text.py lines 110-133) -/

/-- The guard of the loop in `extract_title`:
`line.lower().strip().startswith("title:")`. -/
def isTitleLine (line : List Char) : Bool :=
  startsWithL (pyStrip (pyLower line)) "title:".toList

/-- Python `line.split(":", 1)[1]`: everything after the first colon.  The
empty-list fallback is unreachable in `extract_title` because the guard
guarantees that the line contains a colon. -/
def afterFirstColon (line : List Char) : List Char :=
  match line.dropWhile (fun c => !(c == ':')) with
  | [] => []
  | _ :: rest => rest

/-- The line loop of `extract_title`. -/
def titleScan : List (List Char) → Option String
  | [] => none
  | line :: rest =>
    if isTitleLine line then some (String.mk (pyStrip (afterFirstColon line)))
    else titleScan rest

/-- `extract_title(text)`: scan `text.splitlines()` for the first line whose
lowered, stripped form starts with `"title:"` and return the stripped text
after its first colon; otherwise `None`. -/
def extract_title (text : String) : Option String :=
  titleScan (pySplitlines text)

/-! ### `extract_author_block` (helpers_text.py lines 136-186) -/

/-- The regex class `[A-Za-z \-]` of the next-header pattern. -/
def isHdrChar (c : Char) : Bool := c.isAlpha || c == ' ' || c == '-'

/-- After the leading letter of the next-header pattern: some run of
`[A-Za-z \-]` characters followed by a colon followed by one whitespace
character (`[A-Za-z \-]*:\s`).  The colon is not a class member, so the greedy
run with backtracking matches exactly when this first-colon scan succeeds. -/
def headerTail : List Char → Bool
  | [] => false
  | c :: rest =>
    if c == ':' then
      match rest with
      | [] => false
      | d :: _ => pyIsSpace d
    else if isHdrChar c then headerTail rest
    else false

/-- The next-header pattern `[ \t]*[A-Za-z][A-Za-z \-]*:\s` matched at the
head of `l` (the caret anchoring is handled by the caller).  The space-tab run
is maximal because a letter is not a space or tab. -/
def headerAt (l : List Char) : Bool :=
  match l.dropWhile isSpaceTab with
  | [] => false
  | c :: rest => c.isAlpha && headerTail rest

/-- `re.search(r'(?m)^[ \t]*[A-Za-z][A-Za-z \-]*:\s', s)` : scan positions
left to right; a position qualifies when the caret matches there (offset 0 of
the searched string, or right after a newline) and the pattern matches at it;
return the offset of the first qualifying position. -/
def findHeaderAux : List Char → Bool → Nat → Option Nat
  | [], _, _ => none
  | c :: rest, atStart, idx =>
    if atStart && headerAt (c :: rest) then some idx
    else findHeaderAux rest (c == '\n') (idx + 1)

/-- Case-insensitive match of the literal `author:` at the head of `l`. -/
def matchesAuthor (l : List Char) : Bool :=
  (l.take 7).map Char.toLower == "author:".toList

/-- The author pattern `[ \t]*author:\s*` matched at the head of `l`
(case-insensitive); returns the length of the greedy match, whose trailing
`\s*` run is maximal. -/
def authorAt (l : List Char) : Option Nat :=
  if matchesAuthor (l.dropWhile isSpaceTab) then
    some ((l.takeWhile isSpaceTab).length + 7 +
      (((l.dropWhile isSpaceTab).drop 7).takeWhile pyIsSpace).length)
  else none

/-- `re.search(r'(?im)^[ \t]*author:\s*', text)`: first caret position at
which the author pattern matches; returns `(m.start(), m.end())`. -/
def findAuthorAux : List Char → Bool → Nat → Option (Nat × Nat)
  | [], _, _ => none
  | c :: rest, atStart, idx =>
    if atStart then
      match authorAt (c :: rest) with
      | some len => some (idx, idx + len)
      | none => findAuthorAux rest (c == '\n') (idx + 1)
    else findAuthorAux rest (c == '\n') (idx + 1)

/-- Two consecutive newlines at the head of `l`. -/
def twoNl : List Char → Bool
  | c :: d :: _ => c == '\n' && d == '\n'
  | _ => false

/-- Python `text.find("\n\n", start)` restricted to the suffix from `start`:
offset of the first occurrence of two consecutive newlines. -/
def findBlankAux : List Char → Nat → Option Nat
  | [], _ => none
  | c :: rest, idx =>
    if twoNl (c :: rest) then some idx else findBlankAux rest (idx + 1)

/-- `extract_author_block(text)`: find the first `author:` header; then end
the block at the first next-header match after the author match, else at the
first blank line after it, else at the end of the text; trailing whitespace
trimmed. -/
def extract_author_block (text : String) : Option String :=
  match findAuthorAux text.toList true 0 with
  | none => none
  | some (st, en) =>
    match findHeaderAux (text.toList.drop en) true 0 with
    | some p => some (String.mk (pyRstrip ((text.toList.drop st).take (en + p - st))))
    | none =>
      match findBlankAux (text.toList.drop en) 0 with
      | some b => some (String.mk (pyRstrip ((text.toList.drop st).take (en + b - st))))
      | none => some (String.mk (pyRstrip (text.toList.drop st)))

/-! ### `load_stopwords` (helpers_text.py lines 188-210) -/

/-- `load_stopwords`: the file content is passed as `Option String` (`none`
models an unreadable or missing file, for which the Python code catches the
exception and returns the empty set).  On content, each line is stripped;
blank lines are dropped and the rest are lowered.  The Python set is modelled
as the list of its elements, read up to membership. -/
def load_stopwords : Option String → List String
  | none => []
  | some content =>
    ((splitNl content.toList).filter (fun l => !(pyStrip l).isEmpty)).map
      (fun l => String.mk (pyLower (pyStrip l)))

/-! ### `MyHTMLParser.handle_data` (helpers_text.py lines 237-259) -/

/-- Loop body of `handle_data` on one raw token, over character lists:
strip punctuation, reject empty results, results containing a digit, and
results that are not purely alphabetic once internal hyphens and apostrophes
are removed; lowercase what survives. -/
def cleanL (token : List Char) : Option (List Char) :=
  if stripChars pyPunctuation token = [] then none
  else if (stripChars pyPunctuation token).any Char.isDigit then none
  else if ((stripChars pyPunctuation token).filter (fun c => !(c == '-' || c == apos))) ≠ [] ∧
      ((stripChars pyPunctuation token).filter (fun c => !(c == '-' || c == apos))).all Char.isAlpha
    then some (pyLower (stripChars pyPunctuation token))
  else none

/-- The token cleaner of `handle_data`, on strings. -/
def clean (token : String) : Option String :=
  (cleanL token.toList).map String.mk

/-- `handle_data(data)`: split on whitespace and append each surviving cleaned
token to the accumulated word list of the parser instance. -/
def handle_data (ws : List String) (data : String) : List String :=
  (pySplitWs data.toList).foldl
    (fun acc t =>
      match clean (String.mk t) with
      | some w => acc ++ [w]
      | none => acc) ws

/-! ### `MyHTMLParser.frequency` (helpers_text.py lines 261-299) -/

/-- One step of `collections.Counter`: increment the entry of `w`, appending a
new entry at the end on first encounter (dict insertion order). -/
def bump (w : String) : List (String × Nat) → List (String × Nat)
  | [] => [(w, 1)]
  | (x, c) :: rest => if x = w then (x, c + 1) :: rest else (x, c) :: bump w rest

/-- `Counter(self._words)` as an association list in first-encounter order. -/
def counter (words : List String) : List (String × Nat) :=
  words.foldl (fun acc w => bump w acc) []

/-- The dict-comprehension filter of `frequency`: `c >= n and w not in stopwords`. -/
def survives (n : Int) (stopwords : List String) (p : String × Nat) : Bool :=
  decide (n ≤ (p.2 : Int)) && !(stopwords.contains p.1)

/-- Stable insertion of one entry into a count-descending list: the entry goes
in front of the first entry whose count is not larger, so equal counts keep
their original relative order (Python `sorted` is stable). -/
def insertDesc (p : String × Nat) : List (String × Nat) → List (String × Nat)
  | [] => [p]
  | q :: rest => if p.2 < q.2 then q :: insertDesc p rest else p :: q :: rest

/-- Stable sort by descending count, the result of
`sorted(filtered.items(), key=lambda x: x[1], reverse=True)`. -/
def sortDesc : List (String × Nat) → List (String × Nat)
  | [] => []
  | p :: rest => insertDesc p (sortDesc rest)

/-- Python list slicing `l[:k]` for an arbitrary integer `k`: a nonnegative
bound keeps the first `k` items, a negative bound drops the last `-k`. -/
def pySlice (k : Int) (l : List (String × Nat)) : List (String × Nat) :=
  if k < 0 then l.take ((l.length : Int) + k).toNat else l.take k.toNat

/-- `frequency(n, stopwords, top_k)` over the accumulated word list.  The
returned Python dict is modelled as an association list in its insertion
order.  `if top_k:` is Python truthiness: the truncation branch runs exactly
when `top_k` is neither `None` nor `0`. -/
def frequency (words : List String) (n : Int) (stopwords : List String)
    (top_k : Option Int) : List (String × Nat) :=
  match top_k with
  | some k =>
    if k = 0 then (counter words).filter (survives n stopwords)
    else pySlice k (sortDesc ((counter words).filter (survives n stopwords)))
  | none => (counter words).filter (survives n stopwords)

/-! ### Specification-side vocabulary used by the theorems -/

/-- Index of the first occurrence of `w` in `l` (length of `l` if absent):
the order in which tokens first appear during counting. -/
def firstIdx : List String → String → Nat
  | [], _ => 0
  | x :: rest, w => if x = w then 0 else firstIdx rest w + 1

/-- Caret condition of a multiline regex scan at offset `j` of the searched
string: offset 0 qualifies when the scan starts at a caret position (`flag`),
a later offset qualifies right after a newline. -/
def caretAt (l : List Char) (flag : Bool) : Nat → Prop
  | 0 => flag = true
  | j + 1 => l.get? j = some '\n'

/-- A next-header match of the Python regex at offset `j` of the searched
string. -/
def hdrAux (l : List Char) (flag : Bool) (j : Nat) : Prop :=
  caretAt l flag j ∧ headerAt (l.drop j) = true

/-- Two consecutive newlines at offset `j`. -/
def blankAt (l : List Char) (j : Nat) : Prop :=
  l.get? j = some '\n' ∧ l.get? (j + 1) = some '\n'

/-! ### Lemmas about `firstIdx` -/

theorem firstIdx_lt_length {l : List String} {w : String} (h : w ∈ l) :
    firstIdx l w < l.length := by
  induction l with
  | nil => cases h
  | cons x rest ih =>
    by_cases hx : x = w
    · simp [firstIdx, hx]
    · rcases List.mem_cons.mp h with h | h
      · exact absurd h.symm hx
      · simp only [firstIdx, if_neg hx, List.length_cons]
        exact Nat.succ_lt_succ (ih h)

theorem firstIdx_append_of_mem {l₁ : List String} {w : String} (l₂ : List String)
    (h : w ∈ l₁) : firstIdx (l₁ ++ l₂) w = firstIdx l₁ w := by
  induction l₁ with
  | nil => cases h
  | cons x rest ih =>
    by_cases hx : x = w
    · simp [firstIdx, hx]
    · rcases List.mem_cons.mp h with h | h
      · exact absurd h.symm hx
      · simp only [List.cons_append, firstIdx, if_neg hx, List.append_eq]
        rw [ih h]

theorem firstIdx_append_of_not_mem {l₁ : List String} {w : String} (l₂ : List String)
    (h : w ∉ l₁) : firstIdx (l₁ ++ l₂) w = l₁.length + firstIdx l₂ w := by
  induction l₁ with
  | nil => simp [firstIdx]
  | cons x rest ih =>
    have hx : x ≠ w := fun he => h (he ▸ List.mem_cons_self x rest)
    have hr : w ∉ rest := fun he => h (List.mem_cons_of_mem x he)
    simp only [List.cons_append, firstIdx, if_neg hx, List.length_cons, List.append_eq]
    rw [ih hr]
    omega

/-! ### Lemmas about `bump` and `counter` -/

/-- A pairwise relation that only looks at the keys transports along equality
of the key lists. -/
theorem pairwiseFst_of_keys_eq {P : String → String → Prop} :
    ∀ {acc acc' : List (String × Nat)},
      acc.map Prod.fst = acc'.map Prod.fst →
      acc.Pairwise (fun p q => P p.1 q.1) → acc'.Pairwise (fun p q => P p.1 q.1) := by
  intro acc acc'
  induction acc' generalizing acc with
  | nil => intro _ _; exact List.Pairwise.nil
  | cons q' rest' ih =>
    intro hk hp
    cases acc with
    | nil => simp at hk
    | cons q rest =>
      simp only [List.map_cons, List.cons.injEq] at hk
      obtain ⟨hk1, hk2⟩ := hk
      rw [List.pairwise_cons] at hp ⊢
      obtain ⟨hq, hrest⟩ := hp
      refine ⟨?_, ih hk2 hrest⟩
      intro x' hx'
      have hx'1 : x'.1 ∈ rest'.map Prod.fst := List.mem_map_of_mem Prod.fst hx'
      rw [← hk2] at hx'1
      obtain ⟨x, hx, hxx'⟩ := List.mem_map.mp hx'1
      have := hq x hx
      rw [hxx', hk1] at this
      exact this

theorem bump_keys_of_mem {w : String} {acc : List (String × Nat)}
    (h : w ∈ acc.map Prod.fst) : (bump w acc).map Prod.fst = acc.map Prod.fst := by
  induction acc with
  | nil => simp at h
  | cons q rest ih =>
    obtain ⟨x, c⟩ := q
    by_cases hx : x = w
    · simp [bump, hx]
    · simp only [List.map_cons] at h
      rcases List.mem_cons.mp h with h | h
      · exact absurd h.symm hx
      · simp [bump, hx, ih h]

theorem bump_of_not_mem {w : String} {acc : List (String × Nat)}
    (h : w ∉ acc.map Prod.fst) : bump w acc = acc ++ [(w, 1)] := by
  induction acc with
  | nil => rfl
  | cons q rest ih =>
    obtain ⟨x, c⟩ := q
    have hx : x ≠ w := fun he => h (by simp [he])
    have hr : w ∉ rest.map Prod.fst := fun he => h (by simp [he])
    simp [bump, hx, ih hr]

theorem bump_mem_cases {w : String} {acc : List (String × Nat)}
    (hnd : (acc.map Prod.fst).Nodup) :
    ∀ q ∈ bump w acc,
      (q.1 ≠ w ∧ q ∈ acc) ∨
      (q.1 = w ∧ ∃ c, (w, c) ∈ acc ∧ q.2 = c + 1) ∨
      (q.1 = w ∧ w ∉ acc.map Prod.fst ∧ q = (w, 1)) := by
  induction acc with
  | nil =>
    intro q hq
    simp only [bump, List.mem_singleton] at hq
    subst hq
    exact Or.inr (Or.inr ⟨rfl, by simp, rfl⟩)
  | cons e rest ih =>
    obtain ⟨x, c⟩ := e
    simp only [List.map_cons, List.nodup_cons] at hnd
    obtain ⟨hxnr, hndr⟩ := hnd
    intro q hq
    by_cases hx : x = w
    · subst hx
      simp only [bump, if_pos rfl] at hq
      rcases List.mem_cons.mp hq with hq | hq
      · subst hq
        exact Or.inr (Or.inl ⟨rfl, c, List.mem_cons_self _ _, rfl⟩)
      · left
        refine ⟨?_, List.mem_cons_of_mem _ hq⟩
        intro hqw
        exact hxnr (hqw ▸ List.mem_map_of_mem Prod.fst hq)
    · simp only [bump, if_neg hx] at hq
      rcases List.mem_cons.mp hq with hq | hq
      · subst hq
        exact Or.inl ⟨hx, List.mem_cons_self _ _⟩
      · rcases ih hndr q hq with h | ⟨hw, c', hc', h2⟩ | ⟨hw, hnm, h2⟩
        · exact Or.inl ⟨h.1, List.mem_cons_of_mem _ h.2⟩
        · exact Or.inr (Or.inl ⟨hw, c', List.mem_cons_of_mem _ hc', h2⟩)
        · refine Or.inr (Or.inr ⟨hw, ?_, h2⟩)
          simp only [List.map_cons, List.mem_cons]
          rintro (h | h)
          · exact hx h.symm
          · exact hnm h

/-- Main invariant of the `Counter` fold: over the whole token list `L`, the
accumulated table has pairwise-distinct keys, its keys are exactly the tokens
seen, each value is the number of occurrences of its key, and the entries are
ordered by the first occurrence of their keys in `L`. -/
theorem counter_inv_aux (L : List String) :
    ∀ (rest pre : List String) (acc : List (String × Nat)),
      pre ++ rest = L →
      (acc.map Prod.fst).Nodup →
      (∀ w, w ∈ acc.map Prod.fst ↔ w ∈ pre) →
      (∀ q ∈ acc, q.2 = pre.count q.1) →
      acc.Pairwise (fun p q => firstIdx L p.1 < firstIdx L q.1) →
      ((rest.foldl (fun a w => bump w a) acc).map Prod.fst).Nodup ∧
      (∀ w, w ∈ (rest.foldl (fun a w => bump w a) acc).map Prod.fst ↔ w ∈ L) ∧
      (∀ q ∈ rest.foldl (fun a w => bump w a) acc, q.2 = L.count q.1) ∧
      (rest.foldl (fun a w => bump w a) acc).Pairwise
        (fun p q => firstIdx L p.1 < firstIdx L q.1) := by
  intro rest
  induction rest with
  | nil =>
    intro pre acc hLpre hnd hkeys hcount hpw
    simp only [List.append_nil] at hLpre
    subst hLpre
    exact ⟨hnd, hkeys, hcount, hpw⟩
  | cons w rest' ih =>
    intro pre acc hLpre hnd hkeys hcount hpw
    simp only [List.foldl_cons]
    have hLpre' : (pre ++ [w]) ++ rest' = L := by
      rw [List.append_assoc]; exact hLpre
    by_cases hw : w ∈ acc.map Prod.fst
    · -- existing key: bump keeps the key list, increments the unique entry
      have hkeq : (bump w acc).map Prod.fst = acc.map Prod.fst := bump_keys_of_mem hw
      refine ih (pre ++ [w]) (bump w acc) hLpre' (hkeq ▸ hnd) ?_ ?_ ?_
      · intro x
        rw [hkeq, hkeys]
        constructor
        · intro h; exact List.mem_append_left _ h
        · intro h
          rcases List.mem_append.mp h with h | h
          · exact h
          · rcases List.mem_singleton.mp h with rfl
            exact (hkeys x).mp hw
      · intro q hq
        rcases bump_mem_cases hnd q hq with ⟨hq1, hq2⟩ | ⟨hq1, c', hc', hq2⟩ | ⟨_, hnm, _⟩
        · rw [hcount q hq2, List.count_append]
          have : List.count q.1 [w] = 0 := by simp [hq1]
          omega
        · have hc : c' = pre.count w := by simpa using hcount (w, c') hc'
          rw [hq2, hq1, List.count_append]
          have : List.count w [w] = 1 := by simp
          omega
        · exact absurd hw hnm
      · exact @pairwiseFst_of_keys_eq (fun a b => firstIdx L a < firstIdx L b)
          acc (bump w acc) hkeq.symm hpw
    · -- new key: appended at the end with count 1
      have hbeq : bump w acc = acc ++ [(w, 1)] := bump_of_not_mem hw
      have hwpre : w ∉ pre := fun h => hw ((hkeys w).mpr h)
      refine ih (pre ++ [w]) (bump w acc) hLpre' ?_ ?_ ?_ ?_
      · rw [hbeq, List.map_append]
        simp only [List.map_cons, List.map_nil]
        rw [List.nodup_append]
        exact ⟨hnd, List.nodup_singleton w, by
          intro x hx hx1
          rcases List.mem_singleton.mp hx1 with rfl
          exact hw hx⟩
      · intro x
        rw [hbeq, List.map_append]
        simp only [List.mem_append, List.map_cons, List.map_nil, List.mem_singleton]
        rw [hkeys]
      · intro q hq
        rw [hbeq] at hq
        rcases List.mem_append.mp hq with hq | hq
        · have hq1 : q.1 ≠ w := by
            intro he
            exact hw (he ▸ List.mem_map_of_mem Prod.fst hq)
          rw [hcount q hq, List.count_append]
          have : List.count q.1 [w] = 0 := by simp [hq1]
          omega
        · rcases List.mem_singleton.mp hq with rfl
          simp only [List.count_append]
          rw [List.count_eq_zero.mpr hwpre]
          have : List.count w [w] = 1 := by simp
          simp [this]
      · rw [hbeq, List.pairwise_append]
        refine ⟨hpw, List.pairwise_singleton _ _, ?_⟩
        intro p hp q hq
        rcases List.mem_singleton.mp hq with rfl
        have hp1 : p.1 ∈ pre := (hkeys p.1).mp (List.mem_map_of_mem Prod.fst hp)
        have hLsplit : L = pre ++ (w :: rest') := hLpre.symm
        rw [hLsplit, firstIdx_append_of_mem _ hp1, firstIdx_append_of_not_mem _ hwpre]
        have h1 : firstIdx pre p.1 < pre.length := firstIdx_lt_length hp1
        have h2 : firstIdx (w :: rest') w = 0 := by simp [firstIdx]
        omega

/-- Summary of the `Counter` invariants for `counter L`. -/
theorem counter_props (L : List String) :
    ((counter L).map Prod.fst).Nodup ∧
    (∀ w, w ∈ (counter L).map Prod.fst ↔ w ∈ L) ∧
    (∀ q ∈ counter L, q.2 = L.count q.1) ∧
    (counter L).Pairwise (fun p q => firstIdx L p.1 < firstIdx L q.1) :=
  counter_inv_aux L L [] [] rfl (by simp) (by simp) (by simp) (by simp)

/-! ### Lemmas about the stable descending insertion sort -/

theorem insertDesc_perm (p : String × Nat) (s : List (String × Nat)) :
    List.Perm (insertDesc p s) (p :: s) := by
  induction s with
  | nil => exact List.Perm.refl _
  | cons q rest ih =>
    by_cases h : p.2 < q.2
    · simp only [insertDesc, if_pos h]
      exact (ih.cons q).trans (List.Perm.swap p q rest)
    · simp [insertDesc, if_neg h]

theorem sortDesc_perm (l : List (String × Nat)) : List.Perm (sortDesc l) l := by
  induction l with
  | nil => exact List.Perm.refl _
  | cons p rest ih =>
    exact (insertDesc_perm p (sortDesc rest)).trans (ih.cons p)

theorem mem_insertDesc {a p : String × Nat} {s : List (String × Nat)} :
    a ∈ insertDesc p s ↔ a = p ∨ a ∈ s := by
  rw [(insertDesc_perm p s).mem_iff, List.mem_cons]

theorem insertDesc_sorted {p : String × Nat} {s : List (String × Nat)}
    (hs : s.Pairwise (fun a b => b.2 ≤ a.2)) :
    (insertDesc p s).Pairwise (fun a b => b.2 ≤ a.2) := by
  induction s with
  | nil => exact List.pairwise_singleton _ _
  | cons q rest ih =>
    rw [List.pairwise_cons] at hs
    obtain ⟨hq, hrest⟩ := hs
    by_cases h : p.2 < q.2
    · simp only [insertDesc, if_pos h]
      rw [List.pairwise_cons]
      refine ⟨?_, ih hrest⟩
      intro a ha
      rcases mem_insertDesc.mp ha with rfl | ha
      · exact Nat.le_of_lt h
      · exact hq a ha
    · simp only [insertDesc, if_neg h]
      rw [List.pairwise_cons]
      refine ⟨?_, List.pairwise_cons.mpr ⟨hq, hrest⟩⟩
      intro a ha
      rcases List.mem_cons.mp ha with rfl | ha
      · omega
      · exact Nat.le_trans (hq a ha) (by omega)

theorem sortDesc_sorted (l : List (String × Nat)) :
    (sortDesc l).Pairwise (fun a b => b.2 ≤ a.2) := by
  induction l with
  | nil => exact List.Pairwise.nil
  | cons p rest ih => exact insertDesc_sorted ih

theorem insertDesc_stable {R : (String × Nat) → (String × Nat) → Prop}
    {p : String × Nat} {s : List (String × Nat)}
    (hs : s.Pairwise (fun a b => a.2 = b.2 → R a b))
    (hp : ∀ q ∈ s, p.2 = q.2 → R p q) :
    (insertDesc p s).Pairwise (fun a b => a.2 = b.2 → R a b) := by
  induction s with
  | nil => exact List.pairwise_singleton _ _
  | cons q rest ih =>
    rw [List.pairwise_cons] at hs
    obtain ⟨hq, hrest⟩ := hs
    by_cases h : p.2 < q.2
    · simp only [insertDesc, if_pos h]
      rw [List.pairwise_cons]
      refine ⟨?_, ih hrest (fun x hx => hp x (List.mem_cons_of_mem q hx))⟩
      intro a ha heq
      rcases mem_insertDesc.mp ha with rfl | ha
      · omega
      · exact hq a ha heq
    · simp only [insertDesc, if_neg h]
      rw [List.pairwise_cons]
      refine ⟨?_, List.pairwise_cons.mpr ⟨hq, hrest⟩⟩
      intro a ha heq
      rcases List.mem_cons.mp ha with rfl | ha
      · exact hp a (List.mem_cons_self _ _) heq
      · exact hp a (List.mem_cons_of_mem q ha) heq

theorem sortDesc_stable {R : (String × Nat) → (String × Nat) → Prop}
    {l : List (String × Nat)} (h : l.Pairwise R) :
    (sortDesc l).Pairwise (fun a b => a.2 = b.2 → R a b) := by
  induction l with
  | nil => exact List.Pairwise.nil
  | cons p rest ih =>
    rw [List.pairwise_cons] at h
    obtain ⟨hp, hrest⟩ := h
    refine insertDesc_stable (ih hrest) ?_
    intro q hq _
    exact hp q ((sortDesc_perm rest).mem_iff.mp hq)

/-! ### Characterization of the regex scans -/

theorem hdrAux_cons {c : Char} {rest : List Char} {flag : Bool} {j : Nat} :
    hdrAux (c :: rest) flag (j + 1) ↔ hdrAux rest (c == '\n') j := by
  cases j with
  | zero =>
    simp only [hdrAux, caretAt, List.get?_cons_zero, List.drop_succ_cons, List.drop_zero]
    constructor
    · rintro ⟨h1, h2⟩
      refine ⟨?_, h2⟩
      have hc : c = '\n' := by injection h1
      simp [hc]
    · rintro ⟨h1, h2⟩
      refine ⟨?_, h2⟩
      have hc : c = '\n' := by simpa using h1
      simp [hc]
  | succ j' =>
    simp only [hdrAux, caretAt, List.get?_cons_succ, List.drop_succ_cons]

theorem findHeaderAux_some :
    ∀ (l : List Char) (flag : Bool) (idx p : Nat),
      findHeaderAux l flag idx = some p →
      idx ≤ p ∧ hdrAux l flag (p - idx) ∧ ∀ j, j < p - idx → ¬ hdrAux l flag j := by
  intro l
  induction l with
  | nil => intro flag idx p h; simp [findHeaderAux] at h
  | cons c rest ih =>
    intro flag idx p h
    by_cases hc : (flag && headerAt (c :: rest)) = true
    · rw [findHeaderAux, if_pos hc] at h
      have hp : idx = p := by injection h
      subst hp
      rw [Bool.and_eq_true] at hc
      refine ⟨Nat.le_refl idx, ?_, ?_⟩
      · rw [Nat.sub_self]
        exact ⟨hc.1, by simpa using hc.2⟩
      · intro j hj
        omega
    · rw [findHeaderAux, if_neg hc] at h
      obtain ⟨h1, h2, h3⟩ := ih (c == '\n') (idx + 1) p h
      have hδ : p - idx = (p - (idx + 1)) + 1 := by omega
      refine ⟨by omega, ?_, ?_⟩
      · rw [hδ, hdrAux_cons]
        exact h2
      · intro j hj
        cases j with
        | zero =>
          rintro ⟨hf, hh⟩
          simp only [caretAt] at hf
          simp only [List.drop_zero] at hh
          exact hc (by simp [hf, hh])
        | succ j' =>
          rw [hdrAux_cons]
          exact h3 j' (by omega)

theorem findHeaderAux_none :
    ∀ (l : List Char) (flag : Bool) (idx : Nat),
      findHeaderAux l flag idx = none → ∀ j, ¬ hdrAux l flag j := by
  intro l
  induction l with
  | nil =>
    intro flag idx _ j
    rintro ⟨_, hh⟩
    simp [headerAt, List.drop_nil] at hh
  | cons c rest ih =>
    intro flag idx h j
    by_cases hc : (flag && headerAt (c :: rest)) = true
    · rw [findHeaderAux, if_pos hc] at h
      cases h
    · rw [findHeaderAux, if_neg hc] at h
      cases j with
      | zero =>
        rintro ⟨hf, hh⟩
        simp only [caretAt] at hf
        simp only [List.drop_zero] at hh
        exact hc (by simp [hf, hh])
      | succ j' =>
        rw [hdrAux_cons]
        exact ih (c == '\n') (idx + 1) h j'

theorem blankAt_cons {c : Char} {rest : List Char} {j : Nat} :
    blankAt (c :: rest) (j + 1) ↔ blankAt rest j := by
  simp only [blankAt, List.get?_cons_succ]

theorem twoNl_iff {l : List Char} : twoNl l = true ↔ blankAt l 0 := by
  match l with
  | [] => simp [twoNl, blankAt]
  | [c] => simp [twoNl, blankAt]
  | c :: d :: rest =>
    simp [twoNl, blankAt, beq_iff_eq]

theorem findBlankAux_some :
    ∀ (l : List Char) (idx b : Nat),
      findBlankAux l idx = some b →
      idx ≤ b ∧ blankAt l (b - idx) ∧ ∀ j, j < b - idx → ¬ blankAt l j := by
  intro l
  induction l with
  | nil => intro idx b h; simp [findBlankAux] at h
  | cons c rest ih =>
    intro idx b h
    by_cases hc : twoNl (c :: rest) = true
    · rw [findBlankAux, if_pos hc] at h
      have hb : idx = b := by injection h
      subst hb
      refine ⟨Nat.le_refl idx, ?_, ?_⟩
      · rw [Nat.sub_self]
        exact twoNl_iff.mp hc
      · intro j hj
        omega
    · rw [findBlankAux, if_neg hc] at h
      obtain ⟨h1, h2, h3⟩ := ih (idx + 1) b h
      have hδ : b - idx = (b - (idx + 1)) + 1 := by omega
      refine ⟨by omega, ?_, ?_⟩
      · rw [hδ, blankAt_cons]
        exact h2
      · intro j hj
        cases j with
        | zero =>
          intro hb
          exact hc (twoNl_iff.mpr hb)
        | succ j' =>
          rw [blankAt_cons]
          exact h3 j' (by omega)

theorem findBlankAux_none :
    ∀ (l : List Char) (idx : Nat),
      findBlankAux l idx = none → ∀ j, ¬ blankAt l j := by
  intro l
  induction l with
  | nil =>
    intro idx _ j
    rintro ⟨h1, _⟩
    simp at h1
  | cons c rest ih =>
    intro idx h j
    by_cases hc : twoNl (c :: rest) = true
    · rw [findBlankAux, if_pos hc] at h
      cases h
    · rw [findBlankAux, if_neg hc] at h
      cases j with
      | zero =>
        intro hb
        exact hc (twoNl_iff.mpr hb)
      | succ j' =>
        rw [blankAt_cons]
        exact ih (idx + 1) h j'

/-! ### Helper lemmas for the remaining components -/

theorem titleScan_eq (ls : List (List Char)) :
    titleScan ls
      = (ls.find? isTitleLine).map (fun line => String.mk (pyStrip (afterFirstColon line))) := by
  induction ls with
  | nil => rfl
  | cons line rest ih =>
    by_cases h : isTitleLine line
    · rw [titleScan, if_pos h, List.find?_cons_of_pos _ h]
      rfl
    · rw [titleScan, if_neg h, List.find?_cons_of_neg _ (by simpa using h)]
      exact ih

theorem foldl_clean_append :
    ∀ (ts : List (List Char)) (acc : List String),
      ts.foldl
        (fun a t =>
          match clean (String.mk t) with
          | some w => a ++ [w]
          | none => a) acc
        = acc ++ ts.filterMap (fun t => clean (String.mk t)) := by
  intro ts
  induction ts with
  | nil => intro acc; simp
  | cons t ts ih =>
    intro acc
    simp only [List.foldl_cons, List.filterMap_cons]
    cases h : clean (String.mk t) with
    | none => simp only [h]; rw [ih]
    | some w => simp only [h]; rw [ih, List.append_assoc]; rfl

theorem handle_data_eq (ws : List String) (data : String) :
    handle_data ws data
      = ws ++ (pySplitWs data.toList).filterMap (fun t => clean (String.mk t)) :=
  foldl_clean_append _ _

theorem pySlice_of_pos {k : Int} (hk : 0 < k) (l : List (String × Nat)) :
    pySlice k l = l.take k.toNat := by
  rw [pySlice, if_neg (by omega)]

theorem mem_frequency {tokens : List String} {n : Int} {s : List String}
    {top_k : Option Int} {p : String × Nat} (h : p ∈ frequency tokens n s top_k) :
    p ∈ (counter tokens).filter (survives n s) := by
  cases top_k with
  | none => simpa [frequency] using h
  | some k =>
    by_cases hk : k = 0
    · simpa [frequency, hk] using h
    · simp only [frequency, if_neg hk] at h
      have h1 : p ∈ sortDesc ((counter tokens).filter (survives n s)) := by
        rw [pySlice] at h
        split at h
        · exact List.mem_of_mem_take h
        · exact List.mem_of_mem_take h
      exact (sortDesc_perm _).mem_iff.mp h1

/-! ### Claim theorems -/

/-- Claim C1: for every token sequence, minimum count, stopword set and
positive `topK`, `frequency` returns exactly the `topK` (or fewer) surviving
entries with the highest counts, sorted by descending count, ties among equal
counts resolved by the order in which the tokens first appeared during
counting; in particular on tokens cat, dog, cat, cat, dog with minimum count
2, no stopwords and `topK = 1` the result is exactly the single entry
(cat, 3). -/
theorem frequency_topk_spec (tokens : List String) (n : Int) (s : List String)
    (k : Int) (hk : 0 < k) :
    (frequency tokens n s (some k)).length
        = min k.toNat ((counter tokens).filter (survives n s)).length ∧
    (frequency tokens n s (some k)).Pairwise (fun a b => b.2 ≤ a.2) ∧
    (∀ p, p ∈ frequency tokens n s (some k) →
        p ∈ (counter tokens).filter (survives n s)) ∧
    (∀ p, p ∈ (counter tokens).filter (survives n s) →
        p ∉ frequency tokens n s (some k) →
        ∀ q, q ∈ frequency tokens n s (some k) → p.2 ≤ q.2) ∧
    (frequency tokens n s (some k)).Pairwise
        (fun a b => a.2 = b.2 → firstIdx tokens a.1 < firstIdx tokens b.1) ∧
    frequency ["cat", "dog", "cat", "cat", "dog"] 2 [] (some 1) = [("cat", 3)] := by
  have hne : k ≠ 0 := by omega
  have hfr : frequency tokens n s (some k)
      = (sortDesc ((counter tokens).filter (survives n s))).take k.toNat := by
    simp only [frequency, if_neg hne, pySlice_of_pos hk]
  refine ⟨?_, ?_, ?_, ?_, ?_, by decide⟩
  · rw [hfr, List.length_take, (sortDesc_perm _).length_eq]
  · rw [hfr]
    exact List.Pairwise.sublist (List.take_sublist _ _) (sortDesc_sorted _)
  · intro p hp
    exact mem_frequency hp
  · intro p hpF hpout q hqout
    have hsplit := List.take_append_drop k.toNat
      (sortDesc ((counter tokens).filter (survives n s)))
    have hpS : p ∈ sortDesc ((counter tokens).filter (survives n s)) :=
      (sortDesc_perm _).mem_iff.mpr hpF
    rw [← hsplit] at hpS
    rw [hfr] at hpout hqout
    rcases List.mem_append.mp hpS with hpT | hpD
    · exact absurd hpT hpout
    · have hpw := sortDesc_sorted ((counter tokens).filter (survives n s))
      rw [← hsplit] at hpw
      exact (List.pairwise_append.mp hpw).2.2 q hqout p hpD
  · rw [hfr]
    have h1 := List.Pairwise.filter (R := fun p q : String × Nat =>
        firstIdx tokens p.1 < firstIdx tokens q.1) (survives n s)
      (counter_props tokens).2.2.2
    exact List.Pairwise.sublist (List.take_sublist _ _) (sortDesc_stable h1)

/-- Witness for C1 at the concrete example of the claim. -/
theorem frequency_topk_spec_witness :
    (0 : Int) < 1 ∧
    frequency ["cat", "dog", "cat", "cat", "dog"] 2 [] (some 1) = [("cat", 3)] :=
  ⟨by decide,
   (frequency_topk_spec ["cat", "dog", "cat", "cat", "dog"] 2 [] 1 (by decide)).2.2.2.2.2⟩

/-- Claim C4: every entry of the table returned by `frequency` has a count at
least the minimum count `n` (inclusive threshold) and a word that is not a
stopword, and with a positive `topK` the table has at most `topK` entries. -/
theorem frequency_invariants (tokens : List String) (n : Int) (s : List String)
    (top_k : Option Int) :
    (∀ p, p ∈ frequency tokens n s top_k →
        n ≤ (p.2 : Int) ∧ s.contains p.1 = false) ∧
    (∀ k : Int, 0 < k → (frequency tokens n s (some k)).length ≤ k.toNat) := by
  constructor
  · intro p hp
    have h1 := mem_frequency hp
    rw [List.mem_filter] at h1
    have h2 := h1.2
    rw [survives, Bool.and_eq_true] at h2
    refine ⟨by simpa using h2.1, ?_⟩
    have h3 := h2.2
    simp only [Bool.not_eq_true'] at h3
    exact h3
  · intro k hk
    have hne : k ≠ 0 := by omega
    simp only [frequency, if_neg hne, pySlice_of_pos hk]
    exact List.length_take_le _ _

/-- Witness for C4 at concrete inputs. -/
theorem frequency_invariants_witness :
    ((1 : Int) ≤ (((("fox", 1) : String × Nat)).2 : Int) ∧
      (["the"] : List String).contains (("fox", 1) : String × Nat).1 = false) ∧
    (frequency ["the", "the", "fox"] 1 ["the"] (some 5)).length ≤ (5 : Int).toNat :=
  ⟨(frequency_invariants ["the", "the", "fox"] 1 ["the"] none).1 ("fox", 1) (by decide),
   (frequency_invariants ["the", "the", "fox"] 1 ["the"] none).2 5 (by decide)⟩

/-- Claim C8: `frequency` on an empty token sequence, or when every entry is
removed by the minimum-count and stopword filters, returns the empty table;
in particular on no tokens with minimum count 1, no stopwords and no `topK`
it returns the empty mapping. -/
theorem frequency_empty (n : Int) (s : List String) (top_k : Option Int) :
    frequency [] n s top_k = [] ∧
    (∀ tokens, (counter tokens).filter (survives n s) = [] →
        frequency tokens n s top_k = []) ∧
    frequency [] 1 [] none = [] := by
  refine ⟨?_, ?_, rfl⟩
  · cases top_k with
    | none => rfl
    | some k =>
      by_cases hk : k = 0
      · simp [frequency, hk, counter]
      · simp [frequency, hk, counter, sortDesc, pySlice]
  · intro tokens h
    cases top_k with
    | none => simpa [frequency] using h
    | some k =>
      by_cases hk : k = 0
      · simpa [frequency, hk] using h
      · simp [frequency, hk, h, sortDesc, pySlice]

/-- Witness for C8: a token sequence entirely removed by the threshold. -/
theorem frequency_empty_witness : frequency ["the"] 2 [] none = [] :=
  (frequency_empty 2 [] none).2.1 ["the"] (by decide)

/-- Claim C9: calling `frequency` with `top_k = 0` performs no truncation:
the result equals the result with `top_k = None` (the truncation branch runs
only when `top_k` is truthy), not the empty table. -/
theorem frequency_topk_zero (tokens : List String) (n : Int) (s : List String) :
    frequency tokens n s (some 0) = frequency tokens n s none ∧
    frequency ["cat", "cat"] 1 [] (some 0) = [("cat", 2)] :=
  ⟨by simp [frequency], by decide⟩

/-- Witness for C9 at a concrete input. -/
theorem frequency_topk_zero_witness :
    frequency ["cat", "cat"] 1 [] (some 0) = frequency ["cat", "cat"] 1 [] none :=
  (frequency_topk_zero ["cat", "cat"] 1 []).1

/-- Claim C10: the parser retains accumulated tokens across calls on one
instance: feeding the same segment twice appends its token sequence twice in
order, and every count in a table later returned by `frequency` is exactly
double the occurrence count of that word after a single feed. -/
theorem parser_accumulates (d : String) (ws : List String) :
    handle_data (handle_data ws d) d
      = ws ++ (pySplitWs d.toList).filterMap (fun t => clean (String.mk t))
           ++ (pySplitWs d.toList).filterMap (fun t => clean (String.mk t)) ∧
    (∀ (n : Int) (s : List String) (top_k : Option Int) (p : String × Nat),
        p ∈ frequency ((pySplitWs d.toList).filterMap (fun t => clean (String.mk t))
              ++ (pySplitWs d.toList).filterMap (fun t => clean (String.mk t))) n s top_k →
        p.2 = 2 * ((pySplitWs d.toList).filterMap (fun t => clean (String.mk t))).count p.1) := by
  constructor
  · rw [handle_data_eq, handle_data_eq, List.append_assoc]
  · intro n s top_k p hp
    have h1 := mem_frequency hp
    have h2 := (counter_props _).2.2.1 p (List.mem_filter.mp h1).1
    rw [h2, List.count_append]
    omega

/-- Witness for C10: feeding the segment "b b" twice doubles the count. -/
theorem parser_accumulates_witness :
    ((("b", 4) : String × Nat)).2
      = 2 * ((pySplitWs ("b b" : String).toList).filterMap
          (fun t => clean (String.mk t))).count "b" :=
  (parser_accumulates "b b" []).2 1 [] none ("b", 4) (by decide)

/-- Claim C5: the token cleaner strips leading and trailing punctuation,
emits no token exactly when the stripped result is empty, contains a decimal
digit, or is not purely alphabetic once internal hyphens and apostrophes are
removed, and lowercases every accepted token; `handle_data` applies it to
each whitespace-split candidate; the five concrete examples of the claim. -/
theorem clean_spec :
    (∀ t : String, clean t = none ↔
        (stripChars pyPunctuation t.toList = [] ∨
         (stripChars pyPunctuation t.toList).any Char.isDigit = true ∨
         ¬(((stripChars pyPunctuation t.toList).filter
              (fun c => !(c == '-' || c == apos))) ≠ [] ∧
           ((stripChars pyPunctuation t.toList).filter
              (fun c => !(c == '-' || c == apos))).all Char.isAlpha = true))) ∧
    (∀ t w, clean t = some w →
        w = String.mk (pyLower (stripChars pyPunctuation t.toList))) ∧
    (∀ ws d, handle_data ws d
        = ws ++ (pySplitWs d.toList).filterMap (fun t => clean (String.mk t))) ∧
    (clean "Well-known," = some "well-known" ∧
     clean (String.mk ['d', 'o', 'n', apos, 't'])
        = some (String.mk ['d', 'o', 'n', apos, 't']) ∧
     clean "3rd" = none ∧ clean "---" = none ∧ clean "" = none) := by
  refine ⟨?_, ?_, handle_data_eq, by decide⟩
  · intro t
    simp only [clean, Option.map_eq_none']
    rw [cleanL]
    split_ifs with h1 h2 h3
    · exact iff_of_true rfl (Or.inl h1)
    · exact iff_of_true rfl (Or.inr (Or.inl h2))
    · refine iff_of_false (by simp) ?_
      rintro (h | h | h)
      · exact h1 h
      · exact h2 h
      · exact h h3
    · exact iff_of_true rfl (Or.inr (Or.inr h3))
  · intro t w h
    rw [clean, cleanL] at h
    split_ifs at h with h1 h2 h3 <;> simp_all

/-- Witness for C5: the accepted token is the lowered stripped input. -/
theorem clean_spec_witness :
    ("well-known" : String)
      = String.mk (pyLower (stripChars pyPunctuation ("Well-known," : String).toList)) :=
  clean_spec.2.1 "Well-known," "well-known" (by decide)

/-- Claim C6: `extract_title` scans the lines in order and returns the
trimmed substring after the first colon of the first line whose trimmed form
has the case-insensitive prefix title-colon, is `none` exactly when no such
line exists, and on the concrete example returns the trimmed title. -/
theorem extract_title_spec (text : String) :
    extract_title text
      = ((pySplitlines text).find? isTitleLine).map
          (fun line => String.mk (pyStrip (afterFirstColon line))) ∧
    (extract_title text = none ↔
        ∀ line, line ∈ pySplitlines text → isTitleLine line = false) ∧
    extract_title "junk\nTitle:  The Great Book  \nAuthor: X" = some "The Great Book" := by
  refine ⟨titleScan_eq _, ?_, by decide⟩
  rw [extract_title, titleScan_eq, Option.map_eq_none', List.find?_eq_none]
  constructor
  · intro h line hl
    have := h line hl
    simpa using this
  · intro h line hl
    simp [h line hl]

/-- Witness for C6: a text with no title line yields none. -/
theorem extract_title_spec_witness : extract_title "no headers here" = none :=
  (extract_title_spec "no headers here").2.1.mpr (by decide)

/-- Claim C7: `load_stopwords` returns the set of lowercased, stripped,
non-blank lines of the file, and on a missing or unreadable file it returns
the empty set instead of raising. -/
theorem load_stopwords_spec :
    load_stopwords none = [] ∧
    (∀ (content : String) (w : String),
        w ∈ load_stopwords (some content) ↔
        ∃ l, l ∈ splitNl content.toList ∧ pyStrip l ≠ [] ∧
          w = String.mk (pyLower (pyStrip l))) ∧
    load_stopwords (some "The\n\n  and\n") = ["the", "and"] := by
  refine ⟨rfl, ?_, by decide⟩
  intro content w
  simp only [load_stopwords, List.mem_map, List.mem_filter]
  constructor
  · rintro ⟨l, ⟨hl, hs⟩, he⟩
    refine ⟨l, hl, ?_, he.symm⟩
    simpa using hs
  · rintro ⟨l, hl, hs, he⟩
    exact ⟨l, ⟨hl, by simpa using hs⟩, he.symm⟩

/-- Witness for C7: the unreadable-file branch. -/
theorem load_stopwords_spec_witness : load_stopwords none = [] :=
  load_stopwords_spec.1

/-- Claim C2 counterexample: on the text Author-colon-space Smith-colon-space
the elder, the next-header search fires at offset 0 of the searched suffix,
an absolute position (8) that is not a line boundary of the original text
(position 7 holds a space, not a newline), and the block is terminated there,
so text of header shape occurring mid-line immediately after the matched
field name does terminate the block. -/
theorem extract_author_header_midline_cex :
    findAuthorAux ("Author: Smith: the elder" : String).toList true 0 = some (0, 8) ∧
    findHeaderAux (("Author: Smith: the elder" : String).toList.drop 8) true 0 = some 0 ∧
    ("Author: Smith: the elder" : String).toList.get? 7 = some ' ' ∧
    ¬ ((8 : Nat) = 0 ∨
        ("Author: Smith: the elder" : String).toList.get? (8 - 1) = some '\n') ∧
    extract_author_block "Author: Smith: the elder" = some "Author:" :=
  ⟨by decide, by decide, by decide, by decide, by decide⟩

/-- Claim C2 (amended): when `extract_author_block` ends the block by the
next-metadata-header rule, the terminating occurrence starts either at a line
boundary of the original text or exactly at the end of the matched author
field name (which can lie mid-line). -/
theorem extract_author_header_boundary (text : String) (st en p : Nat)
    (hA : findAuthorAux text.toList true 0 = some (st, en))
    (hH : findHeaderAux (text.toList.drop en) true 0 = some p) :
    p = 0 ∨ text.toList.get? (en + p - 1) = some '\n' := by
  obtain ⟨-, h2, -⟩ := findHeaderAux_some _ _ _ _ hH
  rw [Nat.sub_zero] at h2
  obtain ⟨hc, -⟩ := h2
  cases p with
  | zero => exact Or.inl rfl
  | succ p' =>
    right
    simp only [caretAt] at hc
    rw [List.get?_drop] at hc
    have he : en + (p' + 1) - 1 = en + p' := by omega
    rw [he]
    exact hc

/-- Witness for the amended C2 at a concrete input whose header match is at a
line boundary. -/
theorem extract_author_header_boundary_witness :
    (2 : Nat) = 0 ∨
      ("Author: X\nRelease Date: 2020" : String).toList.get? (8 + 2 - 1) = some '\n' :=
  extract_author_header_boundary "Author: X\nRelease Date: 2020" 0 8 2
    (by decide) (by decide)

/-- Claim C3: the author block ends by this exact precedence: at the first
next-header occurrence after the author match when one exists (even when a
blank line occurs earlier), else at the first blank line when one exists,
else at the end of the document, trailing whitespace trimmed in each case;
plus an adversarial fixture where a blank line occurs before the header and
the header rule still decides the boundary. -/
theorem extract_author_block_precedence (text : String) (st en : Nat)
    (hA : findAuthorAux text.toList true 0 = some (st, en)) :
    ((∃ j, hdrAux (text.toList.drop en) true j) →
       ∃ p, hdrAux (text.toList.drop en) true p ∧
         (∀ q, q < p → ¬ hdrAux (text.toList.drop en) true q) ∧
         extract_author_block text
           = some (String.mk (pyRstrip ((text.toList.drop st).take (en + p - st))))) ∧
    ((∀ j, ¬ hdrAux (text.toList.drop en) true j) →
       (∃ j, blankAt (text.toList.drop en) j) →
       ∃ b, blankAt (text.toList.drop en) b ∧
         (∀ q, q < b → ¬ blankAt (text.toList.drop en) q) ∧
         extract_author_block text
           = some (String.mk (pyRstrip ((text.toList.drop st).take (en + b - st))))) ∧
    ((∀ j, ¬ hdrAux (text.toList.drop en) true j) →
       (∀ j, ¬ blankAt (text.toList.drop en) j) →
       extract_author_block text = some (String.mk (pyRstrip (text.toList.drop st)))) ∧
    extract_author_block "Author: Jane\n\nmore text here\nRelease Date: 2020"
      = some "Author: Jane\n\nmore text here" := by
  have hEA : extract_author_block text
      = match findHeaderAux (text.toList.drop en) true 0 with
        | some p => some (String.mk (pyRstrip ((text.toList.drop st).take (en + p - st))))
        | none =>
          match findBlankAux (text.toList.drop en) 0 with
          | some b => some (String.mk (pyRstrip ((text.toList.drop st).take (en + b - st))))
          | none => some (String.mk (pyRstrip (text.toList.drop st))) := by
    rw [extract_author_block, hA]
  refine ⟨?_, ?_, ?_, by decide⟩
  · rintro ⟨j, hj⟩
    cases hH : findHeaderAux (text.toList.drop en) true 0 with
    | none => exact absurd hj (findHeaderAux_none _ _ _ hH j)
    | some p =>
      obtain ⟨-, h2, h3⟩ := findHeaderAux_some _ _ _ _ hH
      rw [Nat.sub_zero] at h2
      refine ⟨p, h2, ?_, ?_⟩
      · intro q hq
        exact h3 q (by omega)
      · rw [hEA, hH]
  · intro hno hex
    cases hH : findHeaderAux (text.toList.drop en) true 0 with
    | some p =>
      obtain ⟨-, h2, -⟩ := findHeaderAux_some _ _ _ _ hH
      rw [Nat.sub_zero] at h2
      exact absurd h2 (hno p)
    | none =>
      obtain ⟨j, hj⟩ := hex
      cases hB : findBlankAux (text.toList.drop en) 0 with
      | none => exact absurd hj (findBlankAux_none _ _ hB j)
      | some b =>
        obtain ⟨-, h2, h3⟩ := findBlankAux_some _ _ _ hB
        rw [Nat.sub_zero] at h2
        refine ⟨b, h2, ?_, ?_⟩
        · intro q hq
          exact h3 q (by omega)
        · rw [hEA, hH, hB]
  · intro hno1 hno2
    cases hH : findHeaderAux (text.toList.drop en) true 0 with
    | some p =>
      obtain ⟨-, h2, -⟩ := findHeaderAux_some _ _ _ _ hH
      rw [Nat.sub_zero] at h2
      exact absurd h2 (hno1 p)
    | none =>
      cases hB : findBlankAux (text.toList.drop en) 0 with
      | some b =>
        obtain ⟨-, h2, -⟩ := findBlankAux_some _ _ _ hB
        rw [Nat.sub_zero] at h2
        exact absurd h2 (hno2 b)
      | none =>
        rw [hEA, hH, hB]

/-- Witness for C3: the adversarial fixture of the claim, with the author
match discharged concretely. -/
theorem extract_author_block_precedence_witness :
    extract_author_block "Author: Jane\n\nmore text here\nRelease Date: 2020"
      = some "Author: Jane\n\nmore text here" :=
  (extract_author_block_precedence
    "Author: Jane\n\nmore text here\nRelease Date: 2020" 0 8 (by decide)).2.2.2

end HelpersText
